import Mathlib

/-!
Shallow embedding of the gate-level hack simulator core:
the ALU (src/components/alu.go), the 1-bit Mux
(src/components/combinational/bit/mux.go) and the 16-bit Register
(src/unnamed/part_000).  Gate leaves whose Go sources are not part of the
excerpt (Mux16, Not16, Add16, And16, Or8Way, the primitive Not/And/Or and
the clocked Bit cell) are modelled from the specification.  All 16-bit
words are carried as natural numbers; Go's uint16 typing keeps them below
2 ^ 16, and arithmetic that can overflow is taken modulo 2 ^ 16.
-/

namespace HackSim

/-- Signal values on a wire, translated from the Go Val interface with its
implementations InvalidVal, SingleChan (one bool) and SixteenChan (one
uint16 word, carried here as a Nat). -/
inductive Val where
  | invalid : Val
  | single (b : Bool) : Val
  | sixteen (n : Nat) : Val
deriving DecidableEq, Repr

/-- Port identifiers.  In Go, Target is an integer enumeration; the ALU
declares TargetX = 100 through TargetNegOut = 107 (src/components/alu.go). -/
abbrev Target := Nat

def TargetX : Target := 100

def TargetY : Target := 101

def TargetZeroX : Target := 102

def TargetNegX : Target := 103

def TargetZeroY : Target := 104

def TargetNegY : Target := 105

def TargetFunc : Target := 106

def TargetNegOut : Target := 107

/-- Translated from the Go UpdateOpts pair of a target port and a value. -/
structure UpdateOpts where
  target : Target
  val : Val
deriving DecidableEq, Repr

/-- Translated from components.OrderedVal: a single-bit value tagged with a
lane index.  Go uses int for the index; every index produced by this core
is nonnegative, so it is carried as a Nat. -/
structure OrderedVal where
  val : Bool
  idx : Nat
deriving DecidableEq, Repr

/-- Translated from components.OrderedVal16: a 16-bit word tagged with a
slot index. -/
structure OrderedVal16 where
  val : Nat
  idx : Nat
deriving DecidableEq, Repr

/-- A send on a Go channel argument.  Channels are embedded as a Bool flag
(false models a nil channel) together with the list of messages the call
sends on them. -/
def chanSend (c : Bool) (m : OrderedVal) : List OrderedVal :=
  if c then [m] else []

/-- Modelled from the spec: primitive NOT gate of the bit package (only its
callers are under src/).  It computes the negation and, like the other
bit-level gates, reports its tagged result on a non-nil channel. -/
def Not.Update (a : Bool) (c : Bool) (idx : Nat) : Bool × List OrderedVal :=
  (!a, chanSend c ⟨!a, idx⟩)

/-- Modelled from the spec: primitive AND gate of the bit package. -/
def And.Update (a b : Bool) (c : Bool) (idx : Nat) : Bool × List OrderedVal :=
  (a && b, chanSend c ⟨a && b, idx⟩)

/-- Modelled from the spec: primitive OR gate of the bit package. -/
def Or.Update (a b : Bool) (c : Bool) (idx : Nat) : Bool × List OrderedVal :=
  (a || b, chanSend c ⟨a || b, idx⟩)

/-- Translated from src/components/combinational/bit/mux.go: the 1-bit MUX
composed from the primitive Not, two Ands and an Or; sub-gates are invoked
with a nil channel, and the result is sent on the caller's channel when it
is non-nil. -/
def Mux.Update (a b sel : Bool) (c : Bool) (idx : Nat) : Bool × List OrderedVal :=
  let notSel := (Not.Update sel false 0).1
  let aSel := (And.Update a notSel false 0).1
  let bSel := (And.Update sel b false 0).1
  let val := (Or.Update aSel bSel false 0).1
  (val, chanSend c ⟨val, idx⟩)

/-- Modelled from the spec: MUX16 of the components package selects between
two 16-bit words under one select bit (ports TargetA, TargetB, TargetSel0).
A wrong-width or uninitialized signal on a port is a failure. -/
def Mux16.Update (a b sel : Val) : Option Val :=
  match a, b, sel with
  | Val.sixteen x, Val.sixteen y, Val.single s => some (Val.sixteen (if s then y else x))
  | _, _, _ => none

/-- Modelled from the spec: NOT16 complements each of the 16 lanes of a
word (port TargetIn). -/
def Not16.Update : Val → Option Val
  | Val.sixteen x => some (Val.sixteen (65535 - x % 65536))
  | _ => none

/-- Modelled from the spec: ADD16 adds two 16-bit words in two's
complement; overflow silently truncates to 16 bits. -/
def Add16.Update : Val → Val → Option Val
  | Val.sixteen x, Val.sixteen y => some (Val.sixteen ((x + y) % 65536))
  | _, _ => none

/-- Modelled from the spec: AND16 conjoins two 16-bit words lane-wise. -/
def And16.Update : Val → Val → Option Val
  | Val.sixteen x, Val.sixteen y => some (Val.sixteen ((x % 65536) &&& (y % 65536)))
  | _, _ => none

/-- Modelled from the spec: OR8WAY OR-reduces eight single-bit signals
(ports TargetA through TargetH). -/
def Or8Way.Update (a b c d e f g h : Val) : Option Val :=
  match a, b, c, d, e, f, g, h with
  | Val.single a1, Val.single b1, Val.single c1, Val.single d1,
    Val.single e1, Val.single f1, Val.single g1, Val.single h1 =>
      some (Val.single (a1 || b1 || c1 || d1 || e1 || f1 || g1 || h1))
  | _, _, _, _, _, _, _, _ => none

/-- Modelled from the spec: the single-bit OR gate of the components
package, used by the ALU's zero-flag reduction (ports TargetA, TargetB). -/
def OrGate.Update : Val → Val → Option Val
  | Val.single a, Val.single b => some (Val.single (a || b))
  | _, _ => none

/-- Modelled from the spec: the single-bit NOT gate of the components
package (port TargetIn). -/
def NotGate.Update : Val → Option Val
  | Val.single a => some (Val.single (!a))
  | _ => none

/-- Modelled from the spec: SixteenChan.GetBoolFromUint16 extracts bit i of
the carried word, bit 0 being the least significant. -/
def Val.GetBoolFromUint16 : Val → Nat → Option Bool
  | Val.sixteen n, i => some (n.testBit i)
  | _, _ => none

/-- Translated from src/components/alu.go: the ALU holds its last-seen x, y
and six flag inputs.  The gate instances it also holds are stateless, so
they do not appear in the state. -/
structure ALU where
  x : Val
  y : Val
  zx : Val
  nx : Val
  zy : Val
  ny : Val
  f : Val
  no : Val
deriving DecidableEq, Repr

/-- Translated from NewALU (src/components/alu.go): all eight inputs start
as InvalidVal. -/
def NewALU : ALU :=
  ⟨Val.invalid, Val.invalid, Val.invalid, Val.invalid,
   Val.invalid, Val.invalid, Val.invalid, Val.invalid⟩

/-- Translated from the option switch at the head of ALU.Update
(src/components/alu.go lines 98 to 117): the eight recognised targets
store the supplied value; any other target falls through the switch with
no effect. -/
def ALU.applyOpt (alu : ALU) (opt : UpdateOpts) : ALU :=
  if opt.target = TargetX then { alu with x := opt.val }
  else if opt.target = TargetY then { alu with y := opt.val }
  else if opt.target = TargetZeroX then { alu with zx := opt.val }
  else if opt.target = TargetNegX then { alu with nx := opt.val }
  else if opt.target = TargetZeroY then { alu with zy := opt.val }
  else if opt.target = TargetNegY then { alu with ny := opt.val }
  else if opt.target = TargetFunc then { alu with f := opt.val }
  else if opt.target = TargetNegOut then { alu with no := opt.val }
  else alu

def ALU.applyOpts (alu : ALU) (opts : List UpdateOpts) : ALU :=
  opts.foldl ALU.applyOpt alu

/-- Translated from the body of ALU.Update after the option switch
(src/components/alu.go lines 119 to 207): the mux/not/add/and pipeline,
the negative flag from bit 15 and the zero flag from the two-level OR
reduction of all 16 output bits. -/
def ALU.compute (alu : ALU) : Option (Val × Val × Val) :=
  match Mux16.Update alu.x (Val.sixteen 0) alu.zx with
  | none => none
  | some xZero =>
  match Not16.Update xZero with
  | none => none
  | some xNeg =>
  match Mux16.Update xZero xNeg alu.nx with
  | none => none
  | some xPreprocessed =>
  match Mux16.Update alu.y (Val.sixteen 0) alu.zy with
  | none => none
  | some yZero =>
  match Not16.Update yZero with
  | none => none
  | some yNeg =>
  match Mux16.Update yZero yNeg alu.ny with
  | none => none
  | some yPreprocessed =>
  match Add16.Update xPreprocessed yPreprocessed with
  | none => none
  | some xyAdd =>
  match And16.Update xPreprocessed yPreprocessed with
  | none => none
  | some xyAnd =>
  match Mux16.Update xyAnd xyAdd alu.f with
  | none => none
  | some xyF =>
  match Not16.Update xyF with
  | none => none
  | some negXy =>
  match Mux16.Update xyF negXy alu.no with
  | none => none
  | some result =>
  match Val.GetBoolFromUint16 result 15 with
  | none => none
  | some ng =>
  match Val.GetBoolFromUint16 result 0 with
  | none => none
  | some b0 =>
  match Val.GetBoolFromUint16 result 1 with
  | none => none
  | some b1 =>
  match Val.GetBoolFromUint16 result 2 with
  | none => none
  | some b2 =>
  match Val.GetBoolFromUint16 result 3 with
  | none => none
  | some b3 =>
  match Val.GetBoolFromUint16 result 4 with
  | none => none
  | some b4 =>
  match Val.GetBoolFromUint16 result 5 with
  | none => none
  | some b5 =>
  match Val.GetBoolFromUint16 result 6 with
  | none => none
  | some b6 =>
  match Val.GetBoolFromUint16 result 7 with
  | none => none
  | some b7 =>
  match Val.GetBoolFromUint16 result 8 with
  | none => none
  | some b8 =>
  match Val.GetBoolFromUint16 result 9 with
  | none => none
  | some b9 =>
  match Val.GetBoolFromUint16 result 10 with
  | none => none
  | some b10 =>
  match Val.GetBoolFromUint16 result 11 with
  | none => none
  | some b11 =>
  match Val.GetBoolFromUint16 result 12 with
  | none => none
  | some b12 =>
  match Val.GetBoolFromUint16 result 13 with
  | none => none
  | some b13 =>
  match Val.GetBoolFromUint16 result 14 with
  | none => none
  | some b14 =>
  match Val.GetBoolFromUint16 result 15 with
  | none => none
  | some b15 =>
  match Or8Way.Update (Val.single b0) (Val.single b1) (Val.single b2) (Val.single b3) (Val.single b4) (Val.single b5) (Val.single b6) (Val.single b7) with
  | none => none
  | some loByteOr =>
  match Or8Way.Update (Val.single b8) (Val.single b9) (Val.single b10) (Val.single b11) (Val.single b12) (Val.single b13) (Val.single b14) (Val.single b15) with
  | none => none
  | some hiByteOr =>
  match OrGate.Update loByteOr hiByteOr with
  | none => none
  | some zrFlag =>
  match NotGate.Update zrFlag with
  | none => none
  | some zr =>
  some (result, zr, Val.single ng)

/-- Translated from src/components/alu.go: ALU.Update stores the supplied
options into the ALU's inputs and recomputes the pipeline, returning the
result word, the zero flag and the negative flag. -/
def ALU.Update (alu : ALU) (opts : List UpdateOpts) : ALU × Option (Val × Val × Val) :=
  let upd := alu.applyOpts opts
  (upd, upd.compute)

/-- The options list that supplies both data words and all six flags,
matching the column-name to target mapping documented in
src/components/alu.go. -/
def aluOpts (x y : Nat) (zx nx zy ny f no : Bool) : List UpdateOpts :=
  [⟨TargetX, Val.sixteen x⟩, ⟨TargetY, Val.sixteen y⟩,
   ⟨TargetZeroX, Val.single zx⟩, ⟨TargetNegX, Val.single nx⟩,
   ⟨TargetZeroY, Val.single zy⟩, ⟨TargetNegY, Val.single ny⟩,
   ⟨TargetFunc, Val.single f⟩, ⟨TargetNegOut, Val.single no⟩]

/-- One full ALU evaluation from a fresh ALU with every input supplied. -/
def aluEval (x y : Nat) (zx nx zy ny f no : Bool) : Option (Val × Val × Val) :=
  (ALU.Update NewALU (aluOpts x y zx nx zy ny f no)).2

/-- The first (result word) component of an ALU evaluation. -/
def aluOut (x y : Nat) (zx nx zy ny f no : Bool) : Option Val :=
  (aluEval x y zx nx zy ny f no).map Prod.fst

/-- Follows the words of the spec (stage functions of 4.5) for comparison
with the translated code: NOT16 as the 16-bit lane-wise complement. -/
def specNOT16 (n : Nat) : Nat := 65535 - n % 65536

/-- Follows the words of the spec: ADD16 as addition modulo 2 ^ 16. -/
def specADD16 (a b : Nat) : Nat := (a + b) % 65536

/-- Follows the words of the spec: AND16 as the lane-wise conjunction. -/
def specAND16 (a b : Nat) : Nat := (a % 65536) &&& (b % 65536)

/-- Follows the words of the spec (4.5 stages 1 to 4): the four-stage
reference computation of the ALU output word. -/
def aluReference (x y : Nat) (zx nx zy ny f no : Bool) : Nat :=
  let x1 := if zx then 0 else x
  let y1 := if zy then 0 else y
  let x2 := if nx then specNOT16 x1 else x1
  let y2 := if ny then specNOT16 y1 else y1
  let raw := if f then specADD16 x2 y2 else specAND16 x2 y2
  if no then specNOT16 raw else raw

/-- The two-level OR reduction of the 16 output bits, in the association
the ALU's flag gates produce. -/
def orReduce16 (n : Nat) : Bool :=
  (n.testBit 0 || n.testBit 1 || n.testBit 2 || n.testBit 3 ||
   n.testBit 4 || n.testBit 5 || n.testBit 6 || n.testBit 7) ||
  (n.testBit 8 || n.testBit 9 || n.testBit 10 || n.testBit 11 ||
   n.testBit 12 || n.testBit 13 || n.testBit 14 || n.testBit 15)

/-- Modelled from the spec (4.4): the clocked one-bit storage cell of the
sequential bit package (only its callers are under src/).  Update stages
pending as load ? input : current and returns the committed current value;
the value it sends on a non-nil channel is that return value, captured at
the Register level in repliesFrom below. -/
structure Bit where
  current : Bool
  pending : Bool
deriving DecidableEq, Repr

def Bit.Update (b : Bit) (input load : Bool) : Bit × Bool :=
  (⟨b.current, if load then input else b.current⟩, b.current)

/-- Modelled from the spec: Tick commits the staged pending value. -/
def Bit.Tick (b : Bit) : Bit := ⟨b.pending, b.pending⟩

/-- Modelled from the spec: a fresh Bit holds false. -/
def NewBit : Bit := ⟨false, false⟩

/-- Modelled from the spec: util.GetBoolFromUint16 extracts bit i of a
16-bit word, bit 0 being the least significant. -/
def GetBoolFromUint16 (w i : Nat) : Bool := w.testBit i

/-- Translated from src/unnamed/part_000: a Register holds 16 Bits. -/
structure Register where
  bits : List Bit
deriving DecidableEq, Repr

def NewRegister : Register := ⟨List.replicate 16 NewBit⟩

/-- Translated from the fan-out loop of Register.Update
(src/unnamed/part_000 lines 27 to 29): bit i is updated with input bit i
and the shared load flag; k is the index of the first bit of the list. -/
def updateBitsFrom (input : Nat) (load : Bool) : Nat → List Bit → List Bit
  | _, [] => []
  | k, b :: rest =>
      (Bit.Update b (GetBoolFromUint16 input k) load).1 ::
        updateBitsFrom input load (k + 1) rest

/-- The tagged lane replies those updates send on the rendezvous channel:
lane k carries the value Bit.Update returns, tagged with k. -/
def repliesFrom (input : Nat) (load : Bool) : Nat → List Bit → List OrderedVal
  | _, [] => []
  | k, b :: rest =>
      ⟨(Bit.Update b (GetBoolFromUint16 input k) load).2, k⟩ ::
        repliesFrom input load (k + 1) rest

def Register.replies (reg : Register) (input : Nat) (load : Bool) : List OrderedVal :=
  repliesFrom input load 0 reg.bits

/-- Translated from the collect loop of Register.Update
(src/unnamed/part_000 lines 31 to 37): a received reply with a true value
sets output bit idx of the accumulated word. -/
def reconstructStep (acc : Nat) (r : OrderedVal) : Nat :=
  if r.val then acc ||| (1 <<< r.idx) else acc

def reconstruct (arrival : List OrderedVal) : Nat :=
  arrival.foldl reconstructStep 0

/-- Translated from src/unnamed/part_000: Register.Update.  The goroutine
replies arrive on the channel in an order the code does not constrain, so
the arrival order is an explicit argument; the theorems quantify over
every permutation of the lane replies.  When the downstream channel is
non-nil the reassembled word is forwarded there with the caller's slot
index. -/
def Register.Update (reg : Register) (input : Nat) (load : Bool)
    (arrival : List OrderedVal) (c : Bool) (idx : Nat) :
    Register × Nat × List OrderedVal16 :=
  let newBits := updateBitsFrom input load 0 reg.bits
  let outVal := reconstruct arrival
  (⟨newBits⟩, outVal, if c then [⟨outVal, idx⟩] else [])

/-- Translated from src/unnamed/part_000: Register.Tick commits all 16
Bits sequentially. -/
def Register.Tick (reg : Register) : Register := ⟨reg.bits.map Bit.Tick⟩

/-- The canonical reply list of a register whose bits hold the word w:
lane k carries bit k of w, for n consecutive lanes starting at k. -/
def repliesWord (w : Nat) : Nat → Nat → List OrderedVal
  | _, 0 => []
  | k, n + 1 => ⟨w.testBit k, k⟩ :: repliesWord w (k + 1) n

/-- A concrete reply multiset carrying the indices 0 through 15 exactly
once, with the bit pattern of 0xAAAA; used to witness the fan-in
order-independence theorem. -/
def replyListA : List OrderedVal :=
  (List.range 16).map fun i => ⟨GetBoolFromUint16 43690 i, i⟩

/-- The same multiset of replies in the reversed arrival order. -/
def replyListB : List OrderedVal := replyListA.reverse

end HackSim

namespace HackSim

/-- The ALU pipeline translated from the code agrees with the reference
stage computation, and its flags are the OR reduction and bit 15 of the
result word.  This is the workhorse lemma behind the ALU theorems. -/
theorem aluEval_eq (x y : Nat) (zx nx zy ny f no : Bool) :
    aluEval x y zx nx zy ny f no =
      some (Val.sixteen (aluReference x y zx nx zy ny f no),
        Val.single (!(orReduce16 (aluReference x y zx nx zy ny f no))),
        Val.single ((aluReference x y zx nx zy ny f no).testBit 15)) := by
  simp [aluEval, ALU.Update, ALU.applyOpts, ALU.applyOpt, aluOpts, NewALU,
    TargetX, TargetY, TargetZeroX, TargetNegX, TargetZeroY, TargetNegY,
    TargetFunc, TargetNegOut,
    ALU.compute, Mux16.Update, Not16.Update, Add16.Update, And16.Update,
    Or8Way.Update, OrGate.Update, NotGate.Update, Val.GetBoolFromUint16,
    aluReference, specNOT16, specADD16, specAND16, orReduce16]

theorem aluOut_eq (x y : Nat) (zx nx zy ny f no : Bool) :
    aluOut x y zx nx zy ny f no =
      some (Val.sixteen (aluReference x y zx nx zy ny f no)) := by
  simp [aluOut, aluEval_eq]

theorem specNOT16_lt (n : Nat) : specNOT16 n < 65536 := by
  unfold specNOT16; omega

theorem aluReference_lt (x y : Nat) (zx nx zy ny f no : Bool) :
    aluReference x y zx nx zy ny f no < 65536 := by
  unfold aluReference specNOT16 specADD16 specAND16
  have hand : ∀ a b : Nat, (a % 65536) &&& (b % 65536) < 65536 := by
    intro a b
    have hb : b % 65536 < 2 ^ 16 := by omega
    have := Nat.and_lt_two_pow (a % 65536) hb
    omega
  cases f <;> cases no <;> simp <;> first | omega | exact hand _ _

theorem testBit_compl16 {m : Nat} (h : m < 65536) (i : Nat) :
    (65535 - m).testBit i = (decide (i < 16) && ! m.testBit i) := by
  have h2 : m < 2 ^ 16 := by omega
  have e : 65535 - m = 2 ^ 16 - (m + 1) := by omega
  rw [e, Nat.testBit_two_pow_sub_succ h2]

theorem compl16_land_compl16 {x y : Nat} (hx : x < 65536) (hy : y < 65536) :
    65535 - ((65535 - x) &&& (65535 - y)) = x ||| y := by
  have hand : (65535 - x) &&& (65535 - y) < 65536 := by
    have hb : 65535 - y < 2 ^ 16 := by omega
    have := Nat.and_lt_two_pow (65535 - x) hb
    omega
  apply Nat.eq_of_testBit_eq
  intro i
  rw [testBit_compl16 hand, Nat.testBit_or, Nat.testBit_and,
    testBit_compl16 hx, testBit_compl16 hy]
  by_cases hi : i < 16
  · simp [hi]
  · have hp : (2 : Nat) ^ 16 ≤ 2 ^ i := Nat.pow_le_pow_right (by omega) (by omega)
    have he : (2 : Nat) ^ 16 = 65536 := by norm_num
    have hxi : x.testBit i = false := Nat.testBit_lt_two_pow (by omega)
    have hyi : y.testBit i = false := Nat.testBit_lt_two_pow (by omega)
    simp [hi, hxi, hyi]

theorem and_65535 {x : Nat} (h : x < 65536) : x &&& 65535 = x := by
  have h2 : x < 2 ^ 16 := by omega
  have := Nat.and_pow_two_sub_one_of_lt_two_pow h2
  norm_num at this
  exact this

theorem orReduce16_eq_false_iff {n : Nat} (h : n < 65536) :
    orReduce16 n = false ↔ n = 0 := by
  constructor
  · intro hfalse
    by_contra hne
    obtain ⟨i, hbit⟩ := Nat.ne_zero_implies_bit_true hne
    have hlt : i < 16 := by
      by_contra hge
      have h1 := Nat.testBit_implies_ge hbit
      have h2 : (2 : Nat) ^ 16 ≤ 2 ^ i := Nat.pow_le_pow_right (by omega) (by omega)
      have h3 : (2 : Nat) ^ 16 = 65536 := by norm_num
      omega
    unfold orReduce16 at hfalse
    simp only [Bool.or_eq_false_iff] at hfalse
    interval_cases i <;> simp_all
  · intro h0
    subst h0
    simp [orReduce16]

theorem testBit15_iff {n : Nat} (h : n < 65536) :
    n.testBit 15 = true ↔ 32768 ≤ n := by
  rw [Nat.testBit_to_div_mod]
  have e : (2 : Nat) ^ 15 = 32768 := by norm_num
  rw [e]
  simp only [decide_eq_true_eq]
  omega

end HackSim

namespace HackSim

/-- C1: for every pair of 16-bit inputs x and y, calling ALU.Update with
each of the 18 documented flag rows returns as its first result exactly
the row's documented function of x and y, in 16-bit two's complement.
The two's-complement forms are expressed on Nat as their standard
representatives modulo 2 ^ 16: the constant -1 is 65535, !x is 65535 - x,
-x is (65536 - x) % 65536, x - 1 is (x + 65535) % 65536, x - y is
(x + (65536 - y)) % 65536, and x&y and x|y are the bitwise operators. -/
theorem alu_opcode_table (x y : Nat) (hx : x < 65536) (hy : y < 65536) :
    aluOut x y true false true false true false = some (Val.sixteen 0) ∧
    aluOut x y true true true true true true = some (Val.sixteen 1) ∧
    aluOut x y true true true false true false = some (Val.sixteen 65535) ∧
    aluOut x y false false true true false false = some (Val.sixteen x) ∧
    aluOut x y true true false false false false = some (Val.sixteen y) ∧
    aluOut x y false false true true false true = some (Val.sixteen (65535 - x)) ∧
    aluOut x y true true false false false true = some (Val.sixteen (65535 - y)) ∧
    aluOut x y false false true true true true = some (Val.sixteen ((65536 - x) % 65536)) ∧
    aluOut x y true true false false true true = some (Val.sixteen ((65536 - y) % 65536)) ∧
    aluOut x y false true true true true true = some (Val.sixteen ((x + 1) % 65536)) ∧
    aluOut x y true true false true true true = some (Val.sixteen ((y + 1) % 65536)) ∧
    aluOut x y false false true true true false = some (Val.sixteen ((x + 65535) % 65536)) ∧
    aluOut x y true true false false true false = some (Val.sixteen ((y + 65535) % 65536)) ∧
    aluOut x y false false false false true false = some (Val.sixteen ((x + y) % 65536)) ∧
    aluOut x y false true false false true true = some (Val.sixteen ((x + (65536 - y)) % 65536)) ∧
    aluOut x y false false false true true true = some (Val.sixteen ((y + (65536 - x)) % 65536)) ∧
    aluOut x y false false false false false false = some (Val.sixteen (x &&& y)) ∧
    aluOut x y false true false true false true = some (Val.sixteen (x ||| y)) := by
  have mx := Nat.mod_eq_of_lt hx
  have my := Nat.mod_eq_of_lt hy
  have ax : x &&& 65535 = x := and_65535 hx
  have ay : (65535 : Nat) &&& y = y := by rw [Nat.and_comm]; exact and_65535 hy
  refine ⟨?_, ?_, ?_, ?_, ?_, ?_, ?_, ?_, ?_, ?_, ?_, ?_, ?_, ?_, ?_, ?_, ?_, ?_⟩ <;>
    simp [aluOut_eq, aluReference, specNOT16, specADD16, specAND16, mx, my, ax, ay] <;>
    try omega
  have m1 : (65535 - x) % 65536 = 65535 - x := Nat.mod_eq_of_lt (by omega)
  have m2 : (65535 - y) % 65536 = 65535 - y := Nat.mod_eq_of_lt (by omega)
  rw [m1, m2]
  have hand : (65535 - x) &&& (65535 - y) < 65536 := by
    have hb : 65535 - y < 2 ^ 16 := by omega
    have := Nat.and_lt_two_pow (65535 - x) hb
    omega
  rw [Nat.mod_eq_of_lt hand]
  exact compl16_land_compl16 hx hy

/-- Witness for C1 at x = 12345, y = 6789: the hypotheses hold and the
constant-zero row computes 0. -/
theorem alu_opcode_table_witness :
    12345 < 65536 ∧ 6789 < 65536 ∧
    aluOut 12345 6789 true false true false true false = some (Val.sixteen 0) :=
  ⟨by decide, by decide, (alu_opcode_table 12345 6789 (by decide) (by decide)).1⟩

/-- C2: for every x and y and every flag combination, the first result of
ALU.Update equals the four-stage reference computation of the spec:
zero-conditioning, negate-conditioning, add/and function select, output
negation. -/
theorem alu_matches_reference_pipeline (x y : Nat) (zx nx zy ny f no : Bool) :
    aluOut x y zx nx zy ny f no =
      some (Val.sixteen (aluReference x y zx nx zy ny f no)) := by
  simp [aluOut, aluEval_eq]

/-- C3: whenever ALU.Update produces a result word with its two flags, the
zr flag is true exactly when the word is zero, and the ng flag is bit 15
of the word, which is set exactly when the word is at least 0x8000, the
negative range of two's complement. -/
theorem alu_flag_semantics (x y : Nat) (zx nx zy ny f no : Bool)
    (res : Nat) (zr ng : Bool)
    (h : aluEval x y zx nx zy ny f no =
      some (Val.sixteen res, Val.single zr, Val.single ng)) :
    (zr = true ↔ res = 0) ∧ ng = res.testBit 15 ∧ (ng = true ↔ 32768 ≤ res) := by
  rw [aluEval_eq] at h
  simp only [Option.some.injEq, Prod.mk.injEq, Val.sixteen.injEq, Val.single.injEq] at h
  obtain ⟨h1, h2, h3⟩ := h
  subst h1
  refine ⟨?_, h3.symm, ?_⟩
  · rw [← h2, Bool.not_eq_true']
    exact orReduce16_eq_false_iff (aluReference_lt x y zx nx zy ny f no)
  · rw [← h3]
    exact testBit15_iff (aluReference_lt x y zx nx zy ny f no)

/-- Witness for C3 at x = 1, y = 2 with the x+y flag row: the result is 3
with both flags false. -/
theorem alu_flag_semantics_witness :
    (aluEval 1 2 false false false false true false =
      some (Val.sixteen 3, Val.single false, Val.single false)) ∧
    ((false = true ↔ (3 : Nat) = 0) ∧ false = Nat.testBit 3 15 ∧
      (false = true ↔ 32768 ≤ 3)) :=
  ⟨by decide,
    alu_flag_semantics 1 2 false false false false true false 3 false false (by decide)⟩

/-- C4: with x = 0x7FFF, y = 0x0001 and the flag row encoding x+y, the ALU
returns 0x8000 with zr false and ng true: signed overflow wraps modulo
2 ^ 16 and no overflow indication exists. -/
theorem alu_addition_wraps :
    aluEval 32767 1 false false false false true false =
      some (Val.sixteen 32768, Val.single false, Val.single true) := by
  decide

/-- C8 counterexample: an UpdateOpts whose target is 99, outside the ALU's
eight recognised targets, is silently ignored rather than rejected:
appending it to a full option list changes neither the stored inputs nor
any of the three results of ALU.Update. -/
theorem alu_unknown_target_not_rejected :
    ALU.Update NewALU
      (aluOpts 7 9 true false true false true false ++ [⟨99, Val.single true⟩]) =
    ALU.Update NewALU (aluOpts 7 9 true false true false true false) := by
  decide

/-- C8 amended: ALU.Update accepts only its eight named targets, and an
option carrying any other target is silently ignored: deleting it from
the options list leaves the state and all results of ALU.Update
unchanged. -/
theorem alu_update_ignores_unknown_target (alu : ALU) (t : Target) (v : Val)
    (pre post : List UpdateOpts)
    (h : t ∉ [TargetX, TargetY, TargetZeroX, TargetNegX, TargetZeroY,
      TargetNegY, TargetFunc, TargetNegOut]) :
    ALU.Update alu (pre ++ ⟨t, v⟩ :: post) = ALU.Update alu (pre ++ post) := by
  simp only [List.mem_cons, List.not_mem_nil, or_false, not_or] at h
  obtain ⟨h1, h2, h3, h4, h5, h6, h7, h8⟩ := h
  have hstep : ∀ s : ALU, ALU.applyOpt s ⟨t, v⟩ = s := by
    intro s
    simp [ALU.applyOpt, h1, h2, h3, h4, h5, h6, h7, h8]
  simp [ALU.Update, ALU.applyOpts, List.foldl_append, hstep]

/-- Witness for the amended C8 at target 99 on a fresh ALU. -/
theorem alu_update_ignores_unknown_target_witness :
    ((99 : Target) ∉ [TargetX, TargetY, TargetZeroX, TargetNegX, TargetZeroY,
      TargetNegY, TargetFunc, TargetNegOut]) ∧
    ALU.Update NewALU [⟨99, Val.single true⟩] = ALU.Update NewALU [] :=
  ⟨by decide,
    alu_update_ignores_unknown_target NewALU 99 (Val.single true) [] [] (by decide)⟩

end HackSim

namespace HackSim

theorem reconstructStep_comm (z : Nat) (r s : OrderedVal) :
    reconstructStep (reconstructStep z r) s = reconstructStep (reconstructStep z s) r := by
  unfold reconstructStep
  cases hr : r.val <;> cases hs : s.val <;> simp
  rw [Nat.or_assoc, Nat.or_assoc, Nat.or_comm (1 <<< r.idx) (1 <<< s.idx)]

theorem reconstruct_perm {l1 l2 : List OrderedVal} (h : l1.Perm l2) :
    reconstruct l1 = reconstruct l2 :=
  h.foldl_eq' (fun x _ y _ z => reconstructStep_comm z x y) 0

theorem testBit_foldl (l : List OrderedVal) (acc : Nat) (i : Nat) :
    (l.foldl reconstructStep acc).testBit i =
      (acc.testBit i || l.any fun r => decide (r.idx = i) && r.val) := by
  induction l generalizing acc with
  | nil => simp
  | cons r t ih =>
    simp only [List.foldl_cons, List.any_cons, ih]
    unfold reconstructStep
    cases hr : r.val
    · simp
    · simp only [if_true]
      rw [Nat.testBit_or, Nat.one_shiftLeft, Nat.testBit_two_pow]
      cases hacc : acc.testBit i <;> cases hd : decide (r.idx = i) <;> simp_all

theorem testBit_reconstruct (l : List OrderedVal) (i : Nat) :
    (reconstruct l).testBit i = (l.any fun r => decide (r.idx = i) && r.val) := by
  rw [reconstruct, testBit_foldl]
  simp

theorem any_eq_false_of_ne {l : List OrderedVal} {m : Nat}
    (h : ∀ r ∈ l, ¬ r.idx = m) :
    (l.any fun r => decide (r.idx = m) && r.val) = false := by
  induction l with
  | nil => rfl
  | cons r t ih =>
    have h1 := h r (List.mem_cons_self r t)
    simp only [List.any_cons, h1, decide_False, Bool.false_and, Bool.false_or]
    exact ih fun u hu => h u (List.mem_cons_of_mem r hu)

theorem any_eq_of_nodup {l : List OrderedVal}
    (hnd : (l.map OrderedVal.idx).Nodup) {r : OrderedVal} (hr : r ∈ l) :
    (l.any fun s => decide (s.idx = r.idx) && s.val) = r.val := by
  induction l with
  | nil => cases hr
  | cons s t ih =>
    simp only [List.map_cons, List.nodup_cons] at hnd
    obtain ⟨hs, hnd2⟩ := hnd
    rcases List.mem_cons.mp hr with rfl | hrt
    · have htail : (t.any fun u => decide (u.idx = r.idx) && u.val) = false := by
        refine any_eq_false_of_ne fun u hu e => hs ?_
        exact e ▸ List.mem_map_of_mem OrderedVal.idx hu
      simp [List.any_cons, htail]
    · have hne : ¬ s.idx = r.idx := fun e => hs (e ▸ List.mem_map_of_mem OrderedVal.idx hrt)
      simp only [List.any_cons, hne, decide_False, Bool.false_and, Bool.false_or]
      exact ih hnd2 hrt

theorem repliesFrom_idx_bounds (input : Nat) (load : Bool) :
    ∀ (bits : List Bit) (k : Nat) (r : OrderedVal),
    r ∈ repliesFrom input load k bits → k ≤ r.idx ∧ r.idx < k + bits.length := by
  intro bits
  induction bits with
  | nil => intro k r hr; cases hr
  | cons b t ih =>
    intro k r hr
    rcases List.mem_cons.mp hr with rfl | hrt
    · simp
    · have := ih (k + 1) r hrt
      simp only [List.length_cons]
      omega

theorem any_repliesFrom_eq (input : Nat) (load : Bool) :
    ∀ (bits : List Bit) (k j : Nat) (hj : j < bits.length),
    ((repliesFrom input load k bits).any fun r => decide (r.idx = k + j) && r.val) =
      (bits.get ⟨j, hj⟩).current := by
  intro bits
  induction bits with
  | nil => intro k j hj; cases hj
  | cons b t ih =>
    intro k j hj
    match j with
    | 0 =>
      have htail : ((repliesFrom input load (k + 1) t).any
          fun r => decide (r.idx = k) && r.val) = false := by
        refine any_eq_false_of_ne fun r hr e => ?_
        have := repliesFrom_idx_bounds input load t (k + 1) r hr
        omega
      simp [repliesFrom, Bit.Update, htail]
    | j + 1 =>
      have harith : k + (j + 1) = (k + 1) + j := by omega
      have hj2 : j < t.length := by simpa using hj
      have hhead : ¬ (k : Nat) = k + 1 + j := by omega
      rw [harith]
      simp only [repliesFrom, List.any_cons, hhead, decide_False, Bool.false_and,
        Bool.false_or, ih (k + 1) j hj2]
      rfl

theorem repliesWord_idx_bounds (w : Nat) :
    ∀ (n k : Nat) (r : OrderedVal),
    r ∈ repliesWord w k n → k ≤ r.idx ∧ r.idx < k + n := by
  intro n
  induction n with
  | zero => intro k r hr; cases hr
  | succ m ih =>
    intro k r hr
    rcases List.mem_cons.mp hr with rfl | hrt
    · simp
    · have := ih (k + 1) r hrt
      omega

theorem any_repliesWord_eq (w : Nat) :
    ∀ (n k j : Nat), j < n →
    ((repliesWord w k n).any fun r => decide (r.idx = k + j) && r.val) =
      w.testBit (k + j) := by
  intro n
  induction n with
  | zero => intro k j hj; omega
  | succ m ih =>
    intro k j hj
    match j with
    | 0 =>
      have htail : ((repliesWord w (k + 1) m).any
          fun r => decide (r.idx = k) && r.val) = false := by
        refine any_eq_false_of_ne fun r hr e => ?_
        have := repliesWord_idx_bounds w m (k + 1) r hr
        omega
      simp [repliesWord, htail]
    | j + 1 =>
      have harith : k + (j + 1) = (k + 1) + j := by omega
      have hhead : ¬ (k : Nat) = k + 1 + j := by omega
      have hj2 : j < m := by omega
      rw [harith]
      simp only [repliesWord, List.any_cons, hhead, decide_False, Bool.false_and,
        Bool.false_or, ih (k + 1) j hj2]

theorem updateBitsFrom_length (input : Nat) (load : Bool) :
    ∀ (bits : List Bit) (k : Nat),
    (updateBitsFrom input load k bits).length = bits.length := by
  intro bits
  induction bits with
  | nil => intro k; rfl
  | cons b t ih => intro k; simp [updateBitsFrom, ih (k + 1)]

theorem updateBitsFrom_map_current (input : Nat) (load : Bool) :
    ∀ (bits : List Bit) (k : Nat),
    (updateBitsFrom input load k bits).map Bit.current = bits.map Bit.current := by
  intro bits
  induction bits with
  | nil => intro k; rfl
  | cons b t ih => intro k; simp [updateBitsFrom, Bit.Update, ih (k + 1)]

theorem repliesFrom_after_store (w u : Nat) (lo : Bool) :
    ∀ (bits : List Bit) (k : Nat),
    repliesFrom u lo k ((updateBitsFrom w true k bits).map Bit.Tick) =
      repliesWord w k bits.length := by
  intro bits
  induction bits with
  | nil => intro k; rfl
  | cons b t ih =>
    intro k
    simp only [updateBitsFrom, List.map_cons, repliesFrom, Bit.Update, Bit.Tick,
      GetBoolFromUint16, List.length_cons, repliesWord, ih (k + 1)]
    simp

theorem reconstruct_repliesWord {w : Nat} (hw : w < 65536) :
    reconstruct (repliesWord w 0 16) = w := by
  apply Nat.eq_of_testBit_eq
  intro i
  rw [testBit_reconstruct]
  by_cases hi : i < 16
  · have := any_repliesWord_eq w 16 0 i hi
    simpa using this
  · have h1 : ((repliesWord w 0 16).any fun r => decide (r.idx = i) && r.val) = false := by
      refine any_eq_false_of_ne fun r hr e => ?_
      have := repliesWord_idx_bounds w 16 0 r hr
      omega
    rw [h1]
    have hp : (2 : Nat) ^ 16 ≤ 2 ^ i := Nat.pow_le_pow_right (by omega) (by omega)
    have he : (2 : Nat) ^ 16 = 65536 := by norm_num
    exact (Nat.testBit_lt_two_pow (by omega)).symm

end HackSim

namespace HackSim

/-- C5: the 1-bit Mux.Update returns OR(AND(a, NOT(sel)), AND(sel, b));
in particular it returns a when sel is false and b when sel is true,
whatever the channel argument. -/
theorem mux_is_primitive_composition (a b sel : Bool) (c : Bool) (idx : Nat) :
    (Mux.Update a b sel c idx).1 =
      (Or.Update (And.Update a (Not.Update sel false 0).1 false 0).1
        (And.Update sel b false 0).1 false 0).1 ∧
    (Mux.Update a b false c idx).1 = a ∧
    (Mux.Update a b true c idx).1 = b := by
  refine ⟨rfl, ?_, ?_⟩ <;> cases a <;> cases b <;> rfl

/-- C6: for a reply multiset carrying the indices 0 through 15 exactly
once, every permutation of the arrival order yields the same
reconstructed word from Register.Update, and output bit idx is set
exactly where the reply tagged idx carries true. -/
theorem register_fanin_order_independent (reg : Register) (input : Nat) (load : Bool)
    (c : Bool) (idx : Nat) (a1 a2 : List OrderedVal)
    (hidx : (a1.map OrderedVal.idx).Perm (List.range 16))
    (hperm : a1.Perm a2) :
    (Register.Update reg input load a1 c idx).2.1 =
      (Register.Update reg input load a2 c idx).2.1 ∧
    ∀ r ∈ a1,
      ((Register.Update reg input load a1 c idx).2.1).testBit r.idx = r.val := by
  constructor
  · exact reconstruct_perm hperm
  · intro r hr
    have hnd : (a1.map OrderedVal.idx).Nodup := hidx.symm.nodup (List.nodup_range 16)
    show (reconstruct a1).testBit r.idx = r.val
    rw [testBit_reconstruct]
    exact any_eq_of_nodup hnd hr

/-- Witness for C6: the 0xAAAA reply list against its reversed arrival
order on a fresh register. -/
theorem register_fanin_order_independent_witness :
    ((replyListA.map OrderedVal.idx).Perm (List.range 16)) ∧
    (replyListA.Perm replyListB) ∧
    ((Register.Update NewRegister 0 false replyListA false 0).2.1 =
        (Register.Update NewRegister 0 false replyListB false 0).2.1 ∧
      ∀ r ∈ replyListA,
        ((Register.Update NewRegister 0 false replyListA false 0).2.1).testBit r.idx = r.val) :=
  ⟨by decide, by decide,
    register_fanin_order_independent NewRegister 0 false false 0 replyListA replyListB
      (by decide) (by decide)⟩

/-- C7: for every 16-bit word w, Update(w, true) then Tick then
Update(anything, false) returns w, whatever the arrival orders of the two
fan-ins (the second is any permutation of the lane replies). -/
theorem register_persistence (reg : Register) (w u : Nat) (a1 a2 : List OrderedVal)
    (c1 c2 : Bool) (i1 i2 : Nat)
    (hlen : reg.bits.length = 16) (hw : w < 65536)
    (ha2 : a2.Perm ((((Register.Update reg w true a1 c1 i1).1).Tick).replies u false)) :
    (Register.Update (((Register.Update reg w true a1 c1 i1).1).Tick) u false a2 c2 i2).2.1 = w := by
  have e1 : (((Register.Update reg w true a1 c1 i1).1).Tick).replies u false =
      repliesWord w 0 16 := by
    show repliesFrom u false 0 ((updateBitsFrom w true 0 reg.bits).map Bit.Tick) =
      repliesWord w 0 16
    rw [repliesFrom_after_store w u false reg.bits 0, hlen]
  show reconstruct a2 = w
  rw [reconstruct_perm ha2, e1]
  exact reconstruct_repliesWord hw

/-- Witness for C7 at w = 0xFFFF on a fresh register, with the canonical
arrival order. -/
theorem register_persistence_witness :
    NewRegister.bits.length = 16 ∧ 65535 < 65536 ∧
    (Register.Update (((Register.Update NewRegister 65535 true [] false 0).1).Tick) 0 false
      ((((Register.Update NewRegister 65535 true [] false 0).1).Tick).replies 0 false)
      false 0).2.1 = 65535 :=
  ⟨by decide, by decide,
    register_persistence NewRegister 65535 0 []
      ((((Register.Update NewRegister 65535 true [] false 0).1).Tick).replies 0 false)
      false false 0 0 (by decide) (by decide) (List.Perm.refl _)⟩

/-- C9: Register.Update is a combinational read: it leaves every Bit's
committed current value unchanged, and the word it returns is the bitwise
composition of the Bits' current values at call time, for any arrival
order of the lane replies. -/
theorem register_update_is_pure_read (reg : Register) (input : Nat) (load : Bool)
    (arrival : List OrderedVal) (c : Bool) (idx : Nat)
    (harr : arrival.Perm (reg.replies input load)) :
    ((Register.Update reg input load arrival c idx).1.bits.map Bit.current =
      reg.bits.map Bit.current) ∧
    ∀ (i : Nat) (hi : i < reg.bits.length),
      ((Register.Update reg input load arrival c idx).2.1).testBit i =
        (reg.bits.get ⟨i, hi⟩).current := by
  constructor
  · show (updateBitsFrom input load 0 reg.bits).map Bit.current = reg.bits.map Bit.current
    exact updateBitsFrom_map_current input load reg.bits 0
  · intro i hi
    show (reconstruct arrival).testBit i = (reg.bits.get ⟨i, hi⟩).current
    rw [reconstruct_perm harr, testBit_reconstruct]
    have := any_repliesFrom_eq input load reg.bits 0 i hi
    simpa using this

/-- Witness for C9 on a fresh register with input 5 and load true, using
the canonical arrival order. -/
theorem register_update_is_pure_read_witness :
    ((NewRegister.replies 5 true).Perm (NewRegister.replies 5 true)) ∧
    (((Register.Update NewRegister 5 true (NewRegister.replies 5 true) false 0).1.bits.map
        Bit.current = NewRegister.bits.map Bit.current) ∧
      ∀ (i : Nat) (hi : i < NewRegister.bits.length),
        ((Register.Update NewRegister 5 true (NewRegister.replies 5 true) false 0).2.1).testBit i =
          (NewRegister.bits.get ⟨i, hi⟩).current) :=
  ⟨List.Perm.refl _,
    register_update_is_pure_read NewRegister 5 true (NewRegister.replies 5 true) false 0
      (List.Perm.refl _)⟩

/-- C10: with a nil channel Mux.Update and Register.Update send nothing
and still return the computed value; with a non-nil channel each call
sends exactly one message whose value is the returned value and whose
index is the caller's idx argument. -/
theorem channel_send_semantics :
    (∀ (a b sel : Bool) (idx : Nat),
      (Mux.Update a b sel false idx).2 = [] ∧
      (Mux.Update a b sel true idx).2 = [⟨(Mux.Update a b sel true idx).1, idx⟩] ∧
      (Mux.Update a b sel false idx).1 = (Mux.Update a b sel true idx).1) ∧
    (∀ (reg : Register) (input : Nat) (load : Bool) (arrival : List OrderedVal) (idx : Nat),
      (Register.Update reg input load arrival false idx).2.2 = [] ∧
      (Register.Update reg input load arrival true idx).2.2 =
        [⟨(Register.Update reg input load arrival true idx).2.1, idx⟩] ∧
      (Register.Update reg input load arrival false idx).2.1 =
        (Register.Update reg input load arrival true idx).2.1) := by
  constructor
  · intro a b sel idx
    exact ⟨rfl, rfl, rfl⟩
  · intro reg input load arrival idx
    exact ⟨rfl, rfl, rfl⟩

end HackSim
